import Mathlib

/-!
Verification of the decentrust reputation-tracking crate.

The development is a shallow embedding of the crate's core code:

* `cms.rs`        — `CountMinSketch` (matrix of counters, hash projection,
                    `increment`, `estimate`, `normalize_estimates`,
                    `new_from_bounds` sizing);
* `precise.rs`    — `PreciseHonestPeer` (exact backend over key/value maps);
* `probabilistic.rs` — `LightHonestPeer` (sketch backend holding four sketches);
* `cms_iter.rs`   — the borrowed and owned cell iterators.

Numeric values (`OrderedFloat<f64>` in the crate's tests) are modelled as `ℚ`;
every arithmetic operation exercised by the theorems below is exact in `f64`
at the concrete inputs used, so `ℚ` is a faithful model there.  The floating
point sizing formulas of `new_from_bounds` are modelled over `ℝ` since they
involve `ln`.  Rust `HashMap`s are modelled as association lists (iteration
order is irrelevant to every observable we state: totals are commutative sums
and point lookups are keyed).
-/

namespace Decentrust

/-! ## Matrix cells

`Vec<Vec<T>>` is modelled as `List (List ℚ)`.  Rust indexing panics out of
bounds; the accessors below return the default `0` (resp. leave the matrix
unchanged) out of bounds, and every theorem that relies on an access carries
the well-formedness bounds making the access in-bounds, where the two
semantics agree. -/

/-- Read entry `j` of a row, `0` out of bounds (models `row[j]` in bounds). -/
def rowGet : List ℚ → ℕ → ℚ
  | [], _ => 0
  | x :: _, 0 => x
  | _ :: r, j + 1 => rowGet r j

/-- Write entry `j` of a row, identity out of bounds (models `row[j] = x`). -/
def rowSet : List ℚ → ℕ → ℚ → List ℚ
  | [], _, _ => []
  | _ :: r, 0, x => x :: r
  | y :: r, j + 1, x => y :: rowSet r j x

/-- Read row `i` of a matrix, `[]` out of bounds (models `m[i]` in bounds). -/
def matGet : List (List ℚ) → ℕ → List ℚ
  | [], _ => []
  | r :: _, 0 => r
  | _ :: m, i + 1 => matGet m i

/-- Write row `i` of a matrix, identity out of bounds. -/
def matSet : List (List ℚ) → ℕ → List ℚ → List (List ℚ)
  | [], _, _ => []
  | _ :: m, 0, r => r :: m
  | r' :: m, i + 1, r => r' :: matSet m i r

/-- Read the cell at row `i`, column `j`. -/
def getCell (m : List (List ℚ)) (i j : ℕ) : ℚ :=
  rowGet (matGet m i) j

/-- Apply `g` to the cell at row `i`, column `j`
(models `m[i][j] = g(m[i][j])`, e.g. `+=` / clamped `-=`). -/
def mapCellAt (m : List (List ℚ)) (i j : ℕ) (g : ℚ → ℚ) : List (List ℚ) :=
  matSet m i (rowSet (matGet m i) j (g (rowGet (matGet m i) j)))

theorem rowGet_rowSet_self {l : List ℚ} {j : ℕ} (h : j < l.length) (x : ℚ) :
    rowGet (rowSet l j x) j = x := by
  induction l generalizing j with
  | nil => simp at h
  | cons y r ih =>
    cases j with
    | zero => rfl
    | succ j => exact ih (Nat.lt_of_succ_lt_succ h)

theorem rowGet_rowSet_ne {l : List ℚ} {j k : ℕ} (h : k ≠ j) (x : ℚ) :
    rowGet (rowSet l j x) k = rowGet l k := by
  induction l generalizing j k with
  | nil => rfl
  | cons y r ih =>
    cases j with
    | zero => cases k with
      | zero => exact absurd rfl h
      | succ k => rfl
    | succ j => cases k with
      | zero => rfl
      | succ k => exact ih (fun hk => h (by omega))

theorem length_rowSet (l : List ℚ) (j : ℕ) (x : ℚ) :
    (rowSet l j x).length = l.length := by
  induction l generalizing j with
  | nil => rfl
  | cons y r ih => cases j with
    | zero => rfl
    | succ j => simpa [rowSet] using ih j

theorem matGet_matSet_self {m : List (List ℚ)} {i : ℕ} (h : i < m.length) (r : List ℚ) :
    matGet (matSet m i r) i = r := by
  induction m generalizing i with
  | nil => simp at h
  | cons r' m ih =>
    cases i with
    | zero => rfl
    | succ i => exact ih (Nat.lt_of_succ_lt_succ h)

theorem matGet_matSet_ne {m : List (List ℚ)} {i k : ℕ} (h : k ≠ i) (r : List ℚ) :
    matGet (matSet m i r) k = matGet m k := by
  induction m generalizing i k with
  | nil => rfl
  | cons r' m ih =>
    cases i with
    | zero => cases k with
      | zero => exact absurd rfl h
      | succ k => rfl
    | succ i => cases k with
      | zero => rfl
      | succ k => exact ih (fun hk => h (by omega))

theorem length_matSet (m : List (List ℚ)) (i : ℕ) (r : List ℚ) :
    (matSet m i r).length = m.length := by
  induction m generalizing i with
  | nil => rfl
  | cons r' m ih => cases i with
    | zero => rfl
    | succ i => simpa [matSet] using ih i

/-! ## CountMinSketch (`src/cms.rs`)

`hash_builder : RandomState` builds `SipHasher13` hashers keyed by the
builder's random seed.  In `hash_pair` the source constructs a hasher and
immediately calls `hasher.finish()` **without ever writing `item` into it**
(`item` is an unused parameter of the function body), so the digest is a
fixed 64-bit value per sketch, determined only by the seed.  We model that
digest as the field `hashState`. -/

structure CountMinSketch where
  width : ℕ
  depth : ℕ
  matrix : List (List ℚ)
  /-- The value `hasher.finish()` returns for a fresh hasher from this
  sketch's `hash_builder` (a 64-bit digest, fixed at construction). -/
  hashState : ℕ
  max : ℚ
  min : ℚ
deriving DecidableEq

namespace CountMinSketch

/-- Translation of `CountMinSketch::new`: a `depth × width` zero matrix.
`hs` is the random digest of the freshly drawn `RandomState` (see above). -/
def new (width depth : ℕ) (mn mx : ℚ) (hs : ℕ) : CountMinSketch :=
  { width := width
    depth := depth
    matrix := List.replicate depth (List.replicate width 0)
    hashState := hs
    max := mx
    min := mn }

/-- Translation of `CountMinSketch::hash_pair`: the source computes
`(Wrapping(hasher.finish()) + Wrapping(index as u64)).0 as usize % self.width`.
Since `item` is never hashed (see the structure's doc), the digest is
`hashState` and the item parameter is unused, exactly as in the source body. -/
def hash_pair (cms : CountMinSketch) (_item : α) (index : ℕ) : ℕ :=
  ((cms.hashState + index) % 2 ^ 64) % cms.width

/-- Translation of `CountMinSketch::hash_functions`:
one projected column per row index `0 .. depth`. -/
def hash_functions (cms : CountMinSketch) (item : α) : List ℕ :=
  (List.range cms.depth).map (cms.hash_pair item)

/-- The row loop shared by `increment` (and the spec-level `decrement`):
for each row `i` in `0..d`, replace the cell at `(i, hs[i])` by `g` of it.
`List.foldl` over `List.range d` performs the iterations in the source's
ascending order. -/
def rowsApply (g : ℚ → ℚ) (hs : List ℕ) (d : ℕ) (m : List (List ℚ)) : List (List ℚ) :=
  (List.range d).foldl (fun acc i => mapCellAt acc i (hs.getD i 0) g) m

/-- Translation of `CountMinSketch::increment`: add `value` at every
projected cell. -/
def increment (cms : CountMinSketch) (item : α) (value : ℚ) : CountMinSketch :=
  { cms with
    matrix := rowsApply (fun x => x + value) (cms.hash_functions item) cms.depth cms.matrix }

/-- Translation of `CountMinSketch::estimate`: start from the projected cell
of row `0` (the source indexes `matrix[0]`, hence requires `depth > 0`), then
fold `min` over rows `1 .. depth`. -/
def estimate (cms : CountMinSketch) (item : α) : ℚ :=
  let hs := cms.hash_functions item
  (List.range' 1 (cms.depth - 1)).foldl
    (fun acc i => Min.min acc (getCell cms.matrix i (hs.getD i 0)))
    (getCell cms.matrix 0 (hs.getD 0 0))

/-- Row sum, as the source's `row.iter().fold(T::default(), |acc, v| acc + *v)`. -/
def rowTotal (row : List ℚ) : ℚ :=
  row.foldl (fun acc v => acc + v) 0

/-- Translation of `CountMinSketch::normalize_estimates`.  The source fills
`total_vec` with the row sums of `self.matrix`, allocates `new_matrix` as a
fresh `depth × width` matrix of `T::default()` (zeros), and then divides each
cell **of `new_matrix`** by its row total — it never copies `self.matrix`
into `new_matrix`, so every produced cell is `0 / row_total`. -/
def normalize_estimates (cms : CountMinSketch) : List (List ℚ) :=
  let totals := cms.matrix.map rowTotal
  (List.range cms.depth).map (fun idx =>
    (List.range cms.width).map (fun _ => (0 : ℚ) / totals.getD idx 0))

/-- Modelled from the spec (§4.1): `CountMinSketch::decrement` is called by
`probabilistic.rs` (`update_local` / `update_global`) and by the tests in
`lib.rs`, but no `decrement` method exists in `src/src/cms.rs`.  Per the
spec: "for each row `i`, subtract `value` from the counter at
`(i, project(key,i))`, clamped so the cell never goes below the structure's
minimum". -/
def decrement (cms : CountMinSketch) (item : α) (value : ℚ) : CountMinSketch :=
  { cms with
    matrix := rowsApply (fun x => Max.max cms.min (x - value))
      (cms.hash_functions item) cms.depth cms.matrix }

/-- Dimension invariant of a sketch: the matrix really is `depth × width`.
`new` establishes it and every operation preserves it. -/
def matrixWF (cms : CountMinSketch) : Prop :=
  cms.matrix.length = cms.depth ∧ ∀ i < cms.depth, (matGet cms.matrix i).length = cms.width

instance (cms : CountMinSketch) : Decidable (matrixWF cms) := by
  unfold matrixWF; infer_instance

end CountMinSketch

theorem matSet_of_le {m : List (List ℚ)} {i : ℕ} (h : m.length ≤ i) (r : List ℚ) :
    matSet m i r = m := by
  induction m generalizing i with
  | nil => rfl
  | cons r' m ih =>
    cases i with
    | zero => simp at h
    | succ i => simpa [matSet] using ih (Nat.le_of_succ_le_succ h)

theorem length_mapCellAt (m : List (List ℚ)) (i j : ℕ) (g : ℚ → ℚ) :
    (mapCellAt m i j g).length = m.length :=
  length_matSet m i _

theorem matGet_mapCellAt_ne {m : List (List ℚ)} {i k : ℕ} (h : k ≠ i) (j : ℕ) (g : ℚ → ℚ) :
    matGet (mapCellAt m i j g) k = matGet m k :=
  matGet_matSet_ne h _

theorem length_matGet_mapCellAt (m : List (List ℚ)) (i k j : ℕ) (g : ℚ → ℚ) :
    (matGet (mapCellAt m i j g) k).length = (matGet m k).length := by
  rcases Nat.lt_or_ge k m.length with hk | hk
  · rcases eq_or_ne k i with rfl | hne
    · rw [mapCellAt, matGet_matSet_self hk, length_rowSet]
    · rw [matGet_mapCellAt_ne hne]
  · rcases Nat.lt_or_ge i m.length with hi | hi
    · rw [mapCellAt, matGet_matSet_ne (by omega)]
    · rw [mapCellAt, matSet_of_le hi]

theorem rowsApply_succ (g : ℚ → ℚ) (hs : List ℕ) (d : ℕ) (m : List (List ℚ)) :
    CountMinSketch.rowsApply g hs (d + 1) m =
      mapCellAt (CountMinSketch.rowsApply g hs d m) d (hs.getD d 0) g := by
  unfold CountMinSketch.rowsApply
  rw [List.range_succ, List.foldl_append, List.foldl_cons, List.foldl_nil]

theorem length_rowsApply (g : ℚ → ℚ) (hs : List ℕ) (d : ℕ) (m : List (List ℚ)) :
    (CountMinSketch.rowsApply g hs d m).length = m.length := by
  induction d with
  | zero => rfl
  | succ d ih => rw [rowsApply_succ, length_mapCellAt, ih]

theorem length_matGet_rowsApply (g : ℚ → ℚ) (hs : List ℕ) (d : ℕ) (m : List (List ℚ)) (i : ℕ) :
    (matGet (CountMinSketch.rowsApply g hs d m) i).length = (matGet m i).length := by
  induction d with
  | zero => rfl
  | succ d ih => rw [rowsApply_succ, length_matGet_mapCellAt, ih]

theorem matGet_rowsApply_of_le (g : ℚ → ℚ) (hs : List ℕ) {d i : ℕ} (h : d ≤ i)
    (m : List (List ℚ)) :
    matGet (CountMinSketch.rowsApply g hs d m) i = matGet m i := by
  induction d with
  | zero => rfl
  | succ d ih =>
    rw [rowsApply_succ, matGet_mapCellAt_ne (by omega)]
    exact ih (by omega)

/-- The projected cell of a row below `d` gets `g` applied, provided the
access is in bounds (as it is in the source, which would panic otherwise). -/
theorem getCell_rowsApply_hit (g : ℚ → ℚ) (hs : List ℕ) {d i : ℕ} (hd : i < d)
    {m : List (List ℚ)} (hm : i < m.length) (hj : hs.getD i 0 < (matGet m i).length) :
    getCell (CountMinSketch.rowsApply g hs d m) i (hs.getD i 0) =
      g (getCell m i (hs.getD i 0)) := by
  induction d with
  | zero => omega
  | succ d ih =>
    rw [rowsApply_succ]
    rcases eq_or_ne i d with rfl | hne
    · have hms : matGet (CountMinSketch.rowsApply g hs i m) i = matGet m i :=
        matGet_rowsApply_of_le g hs (Nat.le_refl i) m
      have hlen : i < (CountMinSketch.rowsApply g hs i m).length := by
        rw [length_rowsApply]; exact hm
      unfold mapCellAt getCell
      rw [hms, matGet_matSet_self hlen, rowGet_rowSet_self hj]
    · unfold getCell
      rw [matGet_mapCellAt_ne hne]
      exact ih (by omega)

/-- Cells in non-projected columns of rows below `d` are untouched. -/
theorem getCell_rowsApply_miss (g : ℚ → ℚ) (hs : List ℕ) (d : ℕ) {i j : ℕ}
    (hj : j ≠ hs.getD i 0) (m : List (List ℚ)) :
    getCell (CountMinSketch.rowsApply g hs d m) i j = getCell m i j := by
  induction d with
  | zero => rfl
  | succ d ih =>
    rw [rowsApply_succ]
    rcases eq_or_ne i d with rfl | hne
    · have hms : matGet (CountMinSketch.rowsApply g hs i m) i = matGet m i :=
        matGet_rowsApply_of_le g hs (Nat.le_refl i) m
      unfold getCell mapCellAt
      rcases Nat.lt_or_ge i m.length with hk | hk
      · have hlen : i < (CountMinSketch.rowsApply g hs i m).length := by
          rw [length_rowsApply]; exact hk
        rw [hms, matGet_matSet_self hlen, rowGet_rowSet_ne hj]
      · rw [matSet_of_le (by rw [length_rowsApply]; exact hk), hms]
    · unfold getCell
      rw [matGet_mapCellAt_ne hne]
      exact ih

namespace CountMinSketch

theorem hash_pair_lt {cms : CountMinSketch} (hw : 0 < cms.width) (item : α) (i : ℕ) :
    cms.hash_pair item i < cms.width :=
  Nat.mod_lt _ hw

/-- Both arguments of `hash_pair` other than the row index are irrelevant to
its value: the source never hashes `item`. -/
theorem hash_pair_const (cms : CountMinSketch) (a : α) (b : β) (i : ℕ) :
    cms.hash_pair a i = cms.hash_pair b i := rfl

theorem rangeMap_getD : ∀ (d i : ℕ) (f : ℕ → ℕ), i < d → ((List.range d).map f).getD i 0 = f i := by
  intro d
  induction d with
  | zero => omega
  | succ d ih =>
    intro i f h
    rw [List.range_succ_eq_map]
    cases i with
    | zero => rfl
    | succ i =>
      rw [List.map_cons, List.getD_cons_succ, List.map_map]
      exact ih i (f ∘ Nat.succ) (by omega)

theorem hash_functions_getD {cms : CountMinSketch} (item : α) {i : ℕ} (h : i < cms.depth) :
    (cms.hash_functions item).getD i 0 = cms.hash_pair item i :=
  rangeMap_getD cms.depth i _ h

theorem le_foldl_min {f : ℕ → ℚ} {t a : ℚ} (l : List ℕ) (ha : t ≤ a)
    (h : ∀ i ∈ l, t ≤ f i) :
    t ≤ l.foldl (fun acc i => Min.min acc (f i)) a := by
  induction l generalizing a with
  | nil => exact ha
  | cons x l ih =>
    rw [List.foldl_cons]
    exact ih (le_min ha (h x (List.mem_cons_self x l))) fun i hi => h i (List.mem_cons_of_mem x hi)

theorem foldl_min_comm {g : ℚ → ℚ} (hg : ∀ x y, g (Min.min x y) = Min.min (g x) (g y))
    {f fg : ℕ → ℚ} (l : List ℕ) (hfg : ∀ i ∈ l, fg i = g (f i)) (a : ℚ) :
    l.foldl (fun acc i => Min.min acc (fg i)) (g a) =
      g (l.foldl (fun acc i => Min.min acc (f i)) a) := by
  induction l generalizing a with
  | nil => rfl
  | cons x l ih =>
    rw [List.foldl_cons, List.foldl_cons, hfg x (List.mem_cons_self x l), ← hg]
    exact ih (fun i hi => hfg i (List.mem_cons_of_mem x hi)) _

/-- Any lower bound of every projected cell bounds the estimate from below. -/
theorem le_estimate {cms : CountMinSketch} (item : α) (hd : 0 < cms.depth) {t : ℚ}
    (h : ∀ i < cms.depth, t ≤ getCell cms.matrix i (cms.hash_pair item i)) :
    t ≤ cms.estimate item := by
  unfold estimate
  refine le_foldl_min _ ?_ ?_
  · rw [hash_functions_getD item hd]
    exact h 0 hd
  · intro i hi
    rcases (List.mem_range'_1).1 hi with ⟨h1, h2⟩
    have hlt : i < cms.depth := by omega
    rw [hash_functions_getD item hlt]
    exact h i hlt

/-- The estimate after a pointwise min-distributing transformation `g` of the
projected cells equals `g` of the original estimate. -/
theorem estimate_map {cms cms' : CountMinSketch} (item : α) {g : ℚ → ℚ}
    (hg : ∀ x y, g (Min.min x y) = Min.min (g x) (g y))
    (hdep : cms'.depth = cms.depth)
    (hhash : ∀ i, cms'.hash_pair item i = cms.hash_pair item i)
    (hd : 0 < cms.depth)
    (hcell : ∀ i < cms.depth,
      getCell cms'.matrix i (cms.hash_pair item i) = g (getCell cms.matrix i (cms.hash_pair item i))) :
    cms'.estimate item = g (cms.estimate item) := by
  simp only [estimate]
  have hfn : ∀ {i : ℕ}, i < cms.depth →
      (cms'.hash_functions item).getD i 0 = cms.hash_pair item i := by
    intro i hi
    rw [hash_functions_getD item (by omega : i < cms'.depth), hhash]
  rw [hdep]
  have hstart : getCell cms'.matrix 0 ((cms'.hash_functions item).getD 0 0) =
      g (getCell cms.matrix 0 ((cms.hash_functions item).getD 0 0)) := by
    rw [hfn hd, hash_functions_getD item hd]
    exact hcell 0 hd
  rw [hstart]
  refine foldl_min_comm hg _ ?_ _
  intro i hi
  rcases (List.mem_range'_1).1 hi with ⟨h1, h2⟩
  have hlt : i < cms.depth := by omega
  rw [hfn hlt, hash_functions_getD item hlt]
  exact hcell i hlt

@[simp] theorem increment_width (cms : CountMinSketch) (item : α) (v : ℚ) :
    (cms.increment item v).width = cms.width := rfl

@[simp] theorem increment_depth (cms : CountMinSketch) (item : α) (v : ℚ) :
    (cms.increment item v).depth = cms.depth := rfl

@[simp] theorem increment_hashState (cms : CountMinSketch) (item : α) (v : ℚ) :
    (cms.increment item v).hashState = cms.hashState := rfl

@[simp] theorem decrement_width (cms : CountMinSketch) (item : α) (v : ℚ) :
    (cms.decrement item v).width = cms.width := rfl

@[simp] theorem decrement_depth (cms : CountMinSketch) (item : α) (v : ℚ) :
    (cms.decrement item v).depth = cms.depth := rfl

@[simp] theorem decrement_min (cms : CountMinSketch) (item : α) (v : ℚ) :
    (cms.decrement item v).min = cms.min := rfl

theorem matGet_replicate {n : ℕ} {r : List ℚ} {k : ℕ} (h : k < n) :
    matGet (List.replicate n r) k = r := by
  induction n generalizing k with
  | zero => omega
  | succ n ih =>
    cases k with
    | zero => rfl
    | succ k => exact ih (by omega)

theorem matGet_replicate_ge {n : ℕ} {r : List ℚ} {k : ℕ} (h : n ≤ k) :
    matGet (List.replicate n r) k = [] := by
  induction n generalizing k with
  | zero => rfl
  | succ n ih =>
    cases k with
    | zero => omega
    | succ k => exact ih (by omega)

theorem rowGet_replicate_zero (w' j' : ℕ) : rowGet (List.replicate w' (0 : ℚ)) j' = 0 := by
  induction w' generalizing j' with
  | zero => rfl
  | succ w' ih =>
    cases j' with
    | zero => rfl
    | succ j' => exact ih j'

theorem matrixWF_new (w d : ℕ) (mn mx : ℚ) (hs : ℕ) : (new w d mn mx hs).matrixWF := by
  constructor
  · simp [new]
  · intro i hi
    have hi' : i < d := hi
    rw [show (new w d mn mx hs).matrix = List.replicate d (List.replicate w 0) from rfl,
      matGet_replicate hi', List.length_replicate]
    rfl

theorem getCell_new (w d : ℕ) (mn mx : ℚ) (hs : ℕ) (i j : ℕ) :
    getCell (new w d mn mx hs).matrix i j = 0 := by
  rcases Nat.lt_or_ge i d with hi | hi
  · rw [show (new w d mn mx hs).matrix = List.replicate d (List.replicate w 0) from rfl,
      getCell, matGet_replicate hi, rowGet_replicate_zero]
  · rw [show (new w d mn mx hs).matrix = List.replicate d (List.replicate w 0) from rfl,
      getCell, matGet_replicate_ge hi]
    rfl

theorem matrixWF_rowsApply {cms : CountMinSketch} (hwf : cms.matrixWF)
    (g : ℚ → ℚ) (hs : List ℕ) (m' : List (List ℚ))
    (hm' : m' = rowsApply g hs cms.depth cms.matrix) :
    ({ cms with matrix := m' } : CountMinSketch).matrixWF := by
  obtain ⟨hlen, hrow⟩ := hwf
  subst hm'
  constructor
  · simpa [length_rowsApply] using hlen
  · intro i hi
    simpa [length_matGet_rowsApply] using hrow i hi

theorem matrixWF_increment {cms : CountMinSketch} (hwf : cms.matrixWF) (item : α) (v : ℚ) :
    (cms.increment item v).matrixWF :=
  matrixWF_rowsApply hwf _ _ _ rfl

theorem matrixWF_decrement {cms : CountMinSketch} (hwf : cms.matrixWF) (item : α) (v : ℚ) :
    (cms.decrement item v).matrixWF :=
  matrixWF_rowsApply hwf _ _ _ rfl

/-- Value of a projected cell after `increment`: the incremented key and the
queried key always project to the same column (the hash ignores the item), so
every projected cell gains `v`. -/
theorem getCell_increment {cms : CountMinSketch} (hwf : cms.matrixWF) (hw : 0 < cms.width)
    (item : α) (itemQ : β) (v : ℚ) {i : ℕ} (hi : i < cms.depth) :
    getCell (cms.increment item v).matrix i (cms.hash_pair itemQ i) =
      getCell cms.matrix i (cms.hash_pair itemQ i) + v := by
  obtain ⟨hlen, hrow⟩ := hwf
  have hproj : cms.hash_pair itemQ i = (cms.hash_functions item).getD i 0 := by
    rw [hash_functions_getD item hi]
    exact hash_pair_const cms itemQ item i
  rw [increment, hproj]
  refine getCell_rowsApply_hit _ _ hi (by omega) ?_
  rw [hash_functions_getD item hi, hrow i hi]
  exact hash_pair_lt hw item i

/-- Value of a projected cell after `decrement` (spec-modelled):
clamped subtraction. -/
theorem getCell_decrement {cms : CountMinSketch} (hwf : cms.matrixWF) (hw : 0 < cms.width)
    (item : α) (itemQ : β) (v : ℚ) {i : ℕ} (hi : i < cms.depth) :
    getCell (cms.decrement item v).matrix i (cms.hash_pair itemQ i) =
      Max.max cms.min (getCell cms.matrix i (cms.hash_pair itemQ i) - v) := by
  obtain ⟨hlen, hrow⟩ := hwf
  have hproj : cms.hash_pair itemQ i = (cms.hash_functions item).getD i 0 := by
    rw [hash_functions_getD item hi]
    exact hash_pair_const cms itemQ item i
  rw [decrement, hproj]
  refine getCell_rowsApply_hit _ _ hi (by omega) ?_
  rw [hash_functions_getD item hi, hrow i hi]
  exact hash_pair_lt hw item i

/-- Cells in non-projected columns are untouched by `decrement`. -/
theorem getCell_decrement_miss {cms : CountMinSketch} (item : α) (v : ℚ) {i j : ℕ}
    (hj : j ≠ (cms.hash_functions item).getD i 0) :
    getCell (cms.decrement item v).matrix i j = getCell cms.matrix i j :=
  getCell_rowsApply_miss _ _ _ hj _

/-- Characterization of `estimate` after `decrement` (spec-modelled): the new
estimate is the old one, decremented and clamped at `min`. -/
theorem estimate_decrement {cms : CountMinSketch} (hwf : cms.matrixWF) (hw : 0 < cms.width)
    (hd : 0 < cms.depth) (item : α) (v : ℚ) :
    (cms.decrement item v).estimate item = Max.max cms.min (cms.estimate item - v) := by
  refine @estimate_map _ cms (cms.decrement item v) item
    (fun x => Max.max cms.min (x - v)) ?_ rfl (fun i => rfl) hd ?_
  · intro x y
    simp only
    rw [← min_sub_sub_right, ← max_min_distrib_left]
  · intro i hi
    exact getCell_decrement hwf hw item item v hi

/-- A sequence of `increment` calls, in order (models repeated
`cms.increment(&key, value)` calls). -/
def applyIncrements (cms : CountMinSketch) (ops : List (α × ℚ)) : CountMinSketch :=
  ops.foldl (fun c p => c.increment p.1 p.2) cms

/-- The true accumulated value of a key over a sequence of increments:
the sum of the values of exactly the operations carrying that key. -/
def trueValue [DecidableEq α] (item : α) (ops : List (α × ℚ)) : ℚ :=
  ops.foldl (fun acc p => if p.1 = item then acc + p.2 else acc) 0

theorem trueValue_shift [DecidableEq α] (item : α) (ops : List (α × ℚ)) (a : ℚ) :
    ops.foldl (fun acc p => if p.1 = item then acc + p.2 else acc) a = a + trueValue item ops := by
  induction ops generalizing a with
  | nil => simp [trueValue]
  | cons p ops ih =>
    rw [trueValue, List.foldl_cons, List.foldl_cons, ih, ih (if p.1 = item then 0 + p.2 else 0)]
    split <;> ring

theorem trueValue_cons [DecidableEq α] (item : α) (p : α × ℚ) (ops : List (α × ℚ)) :
    trueValue item (p :: ops) = (if p.1 = item then p.2 else 0) + trueValue item ops := by
  rw [trueValue, List.foldl_cons, trueValue_shift]
  split <;> ring

/-- Invariant carried through a sequence of non-negative increments: every
projected cell of the queried key dominates the key's accumulated value
(plus whatever lower bound held initially). -/
theorem cells_ge_applyIncrements [DecidableEq α] (ops : List (α × ℚ)) :
    ∀ (cms : CountMinSketch) (t : ℚ) (item : α), cms.matrixWF → 0 < cms.width →
      (∀ p ∈ ops, 0 ≤ p.2) →
      (∀ i < cms.depth, t ≤ getCell cms.matrix i (cms.hash_pair item i)) →
      (applyIncrements cms ops).matrixWF ∧
      (applyIncrements cms ops).width = cms.width ∧
      (applyIncrements cms ops).depth = cms.depth ∧
      (∀ i < cms.depth, t + trueValue item ops ≤
        getCell (applyIncrements cms ops).matrix i ((applyIncrements cms ops).hash_pair item i)) := by
  induction ops with
  | nil =>
    intro cms t item hwf hw _ hcell
    refine ⟨hwf, rfl, rfl, ?_⟩
    intro i hi
    simpa [applyIncrements, trueValue] using hcell i hi
  | cons p ops ih =>
    intro cms t item hwf hw hnn hcell
    have hwf1 : (cms.increment p.1 p.2).matrixWF := matrixWF_increment hwf p.1 p.2
    have hw1 : 0 < (cms.increment p.1 p.2).width := hw
    have hnn1 : ∀ q ∈ ops, 0 ≤ q.2 := fun q hq => hnn q (List.mem_cons_of_mem p hq)
    have hp : 0 ≤ p.2 := hnn p (List.mem_cons_self p ops)
    have hcell1 : ∀ i < (cms.increment p.1 p.2).depth,
        t + (if p.1 = item then p.2 else 0) ≤
          getCell (cms.increment p.1 p.2).matrix i ((cms.increment p.1 p.2).hash_pair item i) := by
      intro i hi
      have hi' : i < cms.depth := hi
      have heq : (cms.increment p.1 p.2).hash_pair item i = cms.hash_pair item i := rfl
      rw [heq, getCell_increment hwf hw p.1 item p.2 hi']
      have hbound : (if p.1 = item then p.2 else 0) ≤ p.2 := by split <;> simp [hp]
      have := hcell i hi'
      linarith
    obtain ⟨hwf', hwidth', hdepth', hcell'⟩ :=
      ih (cms.increment p.1 p.2) (t + (if p.1 = item then p.2 else 0)) item hwf1 hw1 hnn1 hcell1
    have happ : applyIncrements cms (p :: ops) = applyIncrements (cms.increment p.1 p.2) ops := rfl
    refine ⟨happ ▸ hwf', by rw [happ, hwidth']; rfl, by rw [happ, hdepth']; rfl, ?_⟩
    intro i hi
    have hi1 : i < (cms.increment p.1 p.2).depth := hi
    have := hcell' i hi1
    rw [trueValue_cons, happ]
    linarith

/-- Option-valued traversal of a list (first failure aborts), used to model
a loop of fallible steps. -/
def optTraverse (f : α → Option β) : List α → Option (List β)
  | [] => some []
  | x :: xs =>
    match f x, optTraverse f xs with
    | some y, some ys => some (y :: ys)
    | _, _ => none

/-- Translation of the checked view of `normalize_estimates`: the source
performs `*v /= total_trust` on every cell of the freshly zeroed
`new_matrix`; here each of those divisions is checked, yielding `none` as
soon as a division with zero divisor is executed (for the crate's integer
value types that division panics; for floats it yields non-finite values).
The successful result agrees with `normalize_estimates`. -/
def normalize_estimatesChecked (cms : CountMinSketch) : Option (List (List ℚ)) :=
  let totals := cms.matrix.map rowTotal
  optTraverse (fun idx =>
      optTraverse (fun _ =>
          if totals.getD idx 0 = 0 then none else some ((0 : ℚ) / totals.getD idx 0))
        (List.range cms.width))
    (List.range cms.depth)

end CountMinSketch

/-! ## Exact backend (`src/precise.rs`)

`PreciseHonestPeer<K, V>` keeps four `HashMap<K, V>`; we model each map as an
association list with unique keys reachable by the crate's operations.
Iteration order of a `HashMap` is unspecified; every observable proved below
(point lookups, commutative totals) is order-independent. -/

/-- Lookup (models `HashMap::get`). -/
def mapGet [DecidableEq K] : List (K × ℚ) → K → Option ℚ
  | [], _ => none
  | kv :: rest, k => if kv.1 = k then some kv.2 else mapGet rest k

/-- Insert-or-replace (models `HashMap::insert`). -/
def mapInsert [DecidableEq K] : List (K × ℚ) → K → ℚ → List (K × ℚ)
  | [], k, v => [(k, v)]
  | kv :: rest, k, v => if kv.1 = k then (k, v) :: rest else kv :: mapInsert rest k v

/-- Sum of the values (models `map.values().fold(default, |acc, x| acc + x)`). -/
def mapTotal (m : List (K × ℚ)) : ℚ :=
  m.foldl (fun acc kv => acc + kv.2) 0

theorem mapGet_mapInsert_self [DecidableEq K] (m : List (K × ℚ)) (k : K) (v : ℚ) :
    mapGet (mapInsert m k v) k = some v := by
  induction m with
  | nil => simp [mapGet, mapInsert]
  | cons kv rest ih =>
    by_cases h : kv.1 = k
    · simp [mapInsert, mapGet, h]
    · simp [mapInsert, mapGet, h, ih]

theorem mapGet_mapInsert_ne [DecidableEq K] (m : List (K × ℚ)) {k q : K} (h : k ≠ q) (v : ℚ) :
    mapGet (mapInsert m k v) q = mapGet m q := by
  induction m with
  | nil => simp [mapGet, mapInsert, h]
  | cons kv rest ih =>
    by_cases hk : kv.1 = k
    · subst hk
      simp [mapInsert, mapGet, h]
    · by_cases hq : kv.1 = q <;> simp [mapInsert, mapGet, hk, hq, ih, Ne.symm h]

theorem mapGet_eq_none_iff [DecidableEq K] (m : List (K × ℚ)) (q : K) :
    mapGet m q = none ↔ ∀ kv ∈ m, kv.1 ≠ q := by
  induction m with
  | nil => simp [mapGet]
  | cons kv rest ih =>
    by_cases h : kv.1 = q <;> simp [mapGet, h, ih]

structure PreciseHonestPeer (K : Type) where
  local_trust : List (K × ℚ)
  global_trust : List (K × ℚ)
  normalized_local_trust : List (K × ℚ)
  normalized_global_trust : List (K × ℚ)
deriving DecidableEq

namespace PreciseHonestPeer

variable {K : Type} [DecidableEq K]

/-- Translation of `PreciseHonestPeer::new`: four empty maps. -/
def new : PreciseHonestPeer K :=
  { local_trust := []
    global_trust := []
    normalized_local_trust := []
    normalized_global_trust := [] }

/-- Translation of `normalize_local`: sum all local raw values, then insert
`raw / total` into the normalized map for every key of the raw map. -/
def normalize_local (hp : PreciseHonestPeer K) : PreciseHonestPeer K :=
  let total_trust := mapTotal hp.local_trust
  { hp with
    normalized_local_trust :=
      hp.local_trust.foldl (fun m kv => mapInsert m kv.1 (kv.2 / total_trust))
        hp.normalized_local_trust }

/-- Translation of `normalize_global` (same shape on the global maps). -/
def normalize_global (hp : PreciseHonestPeer K) : PreciseHonestPeer K :=
  let total_trust := mapTotal hp.global_trust
  { hp with
    normalized_global_trust :=
      hp.global_trust.foldl (fun m kv => mapInsert m kv.1 (kv.2 / total_trust))
        hp.normalized_global_trust }

end PreciseHonestPeer

/-- The checked normalization loop of the exact backend: for each raw entry
in turn, divide its value by the (fixed) total — checking the divisor — and
insert into the destination map.  An empty source runs zero iterations and
performs no division. -/
def foldInsertChecked [DecidableEq K] (total : ℚ) :
    List (K × ℚ) → List (K × ℚ) → Option (List (K × ℚ))
  | [], dst => some dst
  | kv :: rest, dst =>
    if total = 0 then none
    else foldInsertChecked total rest (mapInsert dst kv.1 (kv.2 / total))

namespace PreciseHonestPeer

variable {K : Type} [DecidableEq K]

/-- Checked view of `normalize_local`: each executed division
`*v / total_trust` is checked for a zero divisor.  When the raw map is empty
the loop body never runs, so no division is executed at all. -/
def normalize_localChecked (hp : PreciseHonestPeer K) : Option (PreciseHonestPeer K) :=
  (foldInsertChecked (mapTotal hp.local_trust) hp.local_trust hp.normalized_local_trust).map
    (fun m => { hp with normalized_local_trust := m })

/-- Checked view of `normalize_global` (same shape on the global maps). -/
def normalize_globalChecked (hp : PreciseHonestPeer K) : Option (PreciseHonestPeer K) :=
  (foldInsertChecked (mapTotal hp.global_trust) hp.global_trust hp.normalized_global_trust).map
    (fun m => { hp with normalized_global_trust := m })

/-- Translation of `init_local`: plain insert, then renormalize. -/
def init_local (hp : PreciseHonestPeer K) (key : K) (init_value : ℚ) : PreciseHonestPeer K :=
  normalize_local { hp with local_trust := mapInsert hp.local_trust key init_value }

/-- Translation of `update_local`.  Note the source signature: it takes only
`(key, trust_delta)` — there is no `Update` direction argument (unlike the
`HonestPeer` trait declaration and the crate's tests) — and it always adds. -/
def update_local (hp : PreciseHonestPeer K) (key : K) (trust_delta : ℚ) : PreciseHonestPeer K :=
  let lt :=
    match mapGet hp.local_trust key with
    | some trust_score => mapInsert hp.local_trust key (trust_score + trust_delta)
    | none => mapInsert hp.local_trust key trust_delta
  normalize_local { hp with local_trust := lt }

/-- Translation of `init_global`: plain insert, then renormalize (no sender
weighting in the source). -/
def init_global (hp : PreciseHonestPeer K) (key : K) (init_value : ℚ) : PreciseHonestPeer K :=
  normalize_global { hp with global_trust := mapInsert hp.global_trust key init_value }

/-- Translation of `update_global`.  Note the source signature: it takes only
`(key, trust_delta)` — no `sender`, no direction, no weighting by the
sender's normalized local trust — and it always adds the raw delta. -/
def update_global (hp : PreciseHonestPeer K) (key : K) (trust_delta : ℚ) : PreciseHonestPeer K :=
  let gt :=
    match mapGet hp.global_trust key with
    | some trust_score => mapInsert hp.global_trust key (trust_score + trust_delta)
    | none => mapInsert hp.global_trust key trust_delta
  normalize_global { hp with global_trust := gt }

/-- Translation of `get_raw_local`. -/
def get_raw_local (hp : PreciseHonestPeer K) (key : K) : Option ℚ :=
  mapGet hp.local_trust key

/-- Translation of `get_normalized_local`. -/
def get_normalized_local (hp : PreciseHonestPeer K) (key : K) : Option ℚ :=
  mapGet hp.normalized_local_trust key

/-- Translation of `get_raw_global`. -/
def get_raw_global (hp : PreciseHonestPeer K) (key : K) : Option ℚ :=
  mapGet hp.global_trust key

/-- Translation of `get_normalized_global`. -/
def get_normalized_global (hp : PreciseHonestPeer K) (key : K) : Option ℚ :=
  mapGet hp.normalized_global_trust key

end PreciseHonestPeer

/-! ## Sketch backend (`src/probabilistic.rs`) -/

/-- Translation of the `Update` enum of `src/honest_peer.rs`. -/
inductive Update where
  | increment : Update
  | decrement : Update
deriving DecidableEq

/-- Translation of `LightHonestPeer<K, V>`: four `CountMinSketch`es.  The
`id_type : Option<PhantomData<K>>` marker has no runtime content and is
omitted; the key type appears as the item-argument type of the operations. -/
structure LightHonestPeer where
  local_trust : CountMinSketch
  global_trust : CountMinSketch
  normalized_local_trust : CountMinSketch
  normalized_global_trust : CountMinSketch
deriving DecidableEq

namespace LightHonestPeer

/-- Construction as in `LightHonestPeer::new_from_bounds`: one sketch is
built and cloned into all four roles (so all four share dimensions and the
`RandomState` digest `hs`).  The dimensions are taken as parameters here;
`new_from_bounds`'s own width/depth computation is modelled separately. -/
def newModel (w d : ℕ) (mn mx : ℚ) (hs : ℕ) : LightHonestPeer :=
  let sketch := CountMinSketch.new w d mn mx hs
  { local_trust := sketch
    global_trust := sketch
    normalized_local_trust := sketch
    normalized_global_trust := sketch }

/-- Translation of `normalize_local`: overwrite the normalized sketch's
matrix wholesale with `local_trust.normalize_estimates()`. -/
def normalize_local (hp : LightHonestPeer) : LightHonestPeer :=
  { hp with
    normalized_local_trust :=
      { hp.normalized_local_trust with matrix := hp.local_trust.normalize_estimates } }

/-- Translation of `normalize_global`. -/
def normalize_global (hp : LightHonestPeer) : LightHonestPeer :=
  { hp with
    normalized_global_trust :=
      { hp.normalized_global_trust with matrix := hp.global_trust.normalize_estimates } }

/-- Translation of `init_local`: increment the raw local sketch, then
renormalize. -/
def init_local (hp : LightHonestPeer) (key : α) (init_value : ℚ) : LightHonestPeer :=
  normalize_local { hp with local_trust := hp.local_trust.increment key init_value }

/-- Translation of `update_local`: increment or decrement the raw local
sketch per the direction, then renormalize. -/
def update_local (hp : LightHonestPeer) (key : α) (trust_delta : ℚ) (update : Update) :
    LightHonestPeer :=
  normalize_local
    { hp with
      local_trust :=
        match update with
        | Update.increment => hp.local_trust.increment key trust_delta
        | Update.decrement => hp.local_trust.decrement key trust_delta }

/-- Translation of `init_global`: weight the initial value by the sender's
normalized local estimate, then increment the global sketch and renormalize. -/
def init_global (hp : LightHonestPeer) (sender : α) (key : β) (init_value : ℚ) :
    LightHonestPeer :=
  let sender_trust := hp.normalized_local_trust.estimate sender
  let weighted_init := init_value * sender_trust
  normalize_global { hp with global_trust := hp.global_trust.increment key weighted_init }

/-- Translation of `update_global`: weight the delta by the sender's
normalized local estimate, apply per the direction, then renormalize. -/
def update_global (hp : LightHonestPeer) (sender : α) (key : β) (trust_delta : ℚ)
    (update : Update) : LightHonestPeer :=
  let sender_trust := hp.normalized_local_trust.estimate sender
  let weighted_delta := trust_delta * sender_trust
  normalize_global
    { hp with
      global_trust :=
        match update with
        | Update.increment => hp.global_trust.increment key weighted_delta
        | Update.decrement => hp.global_trust.decrement key weighted_delta }

/-- Translation of `get_raw_local`: always `Some(estimate)`. -/
def get_raw_local (hp : LightHonestPeer) (key : α) : Option ℚ :=
  some (hp.local_trust.estimate key)

/-- Translation of `get_normalized_local`: always `Some(estimate)`. -/
def get_normalized_local (hp : LightHonestPeer) (key : α) : Option ℚ :=
  some (hp.normalized_local_trust.estimate key)

/-- Translation of `get_raw_global`: always `Some(estimate)`. -/
def get_raw_global (hp : LightHonestPeer) (key : α) : Option ℚ :=
  some (hp.global_trust.estimate key)

/-- Translation of `get_normalized_global`: always `Some(estimate)`. -/
def get_normalized_global (hp : LightHonestPeer) (key : α) : Option ℚ :=
  some (hp.normalized_global_trust.estimate key)

end LightHonestPeer

/-! ## Sketch cell iterators (`src/cms_iter.rs`)

A single call of `next()` either returns `None` (modelled `done`), returns
`Some(cell)` and advances the cursor (modelled `yield`), or performs an
out-of-bounds `Vec` index, which panics in Rust (modelled `fault`). -/

inductive IterStep where
  | done : IterStep
  | fault : IterStep
  | yieldCell : ℚ → ℕ → ℕ → IterStep
deriving DecidableEq

/-- In-bounds cell read: `none` exactly when Rust's `matrix[row][col]`
would panic. -/
def getCellChecked (m : List (List ℚ)) (i j : ℕ) : Option ℚ :=
  match m.get? i with
  | none => none
  | some row => row.get? j

/-- Translation of `CountMinSketchIter::next` (borrowed iterator): return
`None` once `row >= depth`; otherwise read `matrix[row][col]`, advance the
column and wrap to the next row when `col >= width`. -/
def iterNextBorrowed (cms : CountMinSketch) (row col : ℕ) : IterStep :=
  if cms.depth ≤ row then IterStep.done
  else
    match getCellChecked cms.matrix row col with
    | none => IterStep.fault
    | some x =>
      if cms.width ≤ col + 1 then IterStep.yieldCell x (row + 1) 0
      else IterStep.yieldCell x row (col + 1)

/-- Translation of `CountMinSketchIntoIter::next` (owned iterator): the
source guard is `if self.row > self.matrix.len() { return None }` — strictly
greater, not `>=` — then it reads `matrix[row][col]`, advances the column
and wraps when `col >= matrix[row].len()`. -/
def iterNextOwned (m : List (List ℚ)) (row col : ℕ) : IterStep :=
  if m.length < row then IterStep.done
  else
    match getCellChecked m row col with
    | none => IterStep.fault
    | some x =>
      if (matGet m row).length ≤ col + 1 then IterStep.yieldCell x (row + 1) 0
      else IterStep.yieldCell x row (col + 1)

/-- How a fuelled run of an iterator ends. -/
inductive IterEnd where
  | done : IterEnd
  | fault : IterEnd
  | fuelOut : IterEnd
deriving DecidableEq

/-- Run the borrowed iterator for at most `fuel` calls, collecting outputs. -/
def collectBorrowed (cms : CountMinSketch) : ℕ → ℕ → ℕ → List ℚ × IterEnd
  | 0, _, _ => ([], IterEnd.fuelOut)
  | fuel + 1, row, col =>
    match iterNextBorrowed cms row col with
    | IterStep.done => ([], IterEnd.done)
    | IterStep.fault => ([], IterEnd.fault)
    | IterStep.yieldCell x r c =>
      let p := collectBorrowed cms fuel r c
      (x :: p.1, p.2)

/-- Run the owned iterator for at most `fuel` calls, collecting outputs. -/
def collectOwned (m : List (List ℚ)) : ℕ → ℕ → ℕ → List ℚ × IterEnd
  | 0, _, _ => ([], IterEnd.fuelOut)
  | fuel + 1, row, col =>
    match iterNextOwned m row col with
    | IterStep.done => ([], IterEnd.done)
    | IterStep.fault => ([], IterEnd.fault)
    | IterStep.yieldCell x r c =>
      let p := collectOwned m fuel r c
      (x :: p.1, p.2)

/-! ## Sizing formulas of `new_from_bounds` (`src/cms.rs`)

These are `f64` computations involving `ln`, modelled over `ℝ` (hence
noncomputable); every rounding step of the source is made explicit. -/

/-- Rust `expr as usize` applied to an `f64`: truncate toward zero,
saturating at `0` below and at `usize::MAX` above (`NaN` also goes to `0`). -/
noncomputable def f64AsUsize (x : ℝ) : ℕ :=
  if x ≤ 0 then 0 else Min.min (Int.toNat ⌊x⌋) (2 ^ 64 - 1)

/-- Translation of `CountMinSketch::calculate_width_and_depth`:
`width = ceil(1 / (error_bound / max_entries)) as usize` and
`depth = ceil(ln(probability)) as usize` — exactly as in the source: no
factor `E` in the width, `ln` of `probability` itself (not of its
reciprocal), and no clamping of either value to at least 1. -/
noncomputable def calculate_width_and_depth (error_bound probability max_entries : ℝ) :
    ℕ × ℕ :=
  (f64AsUsize ((⌈1 / (error_bound / max_entries)⌉ : ℤ) : ℝ),
   f64AsUsize ((⌈Real.log probability⌉ : ℤ) : ℝ))

/-- Translation of `CountMinSketch::new_from_bounds`: compute width and
depth from the statistical parameters, then delegate to `new`. -/
noncomputable def new_from_bounds (error_bound probability max_entries : ℝ)
    (mn mx : ℚ) (hs : ℕ) : CountMinSketch :=
  let wd := calculate_width_and_depth error_bound probability max_entries
  CountMinSketch.new wd.1 wd.2 mn mx hs

/-! ## Operation sequences of the exact backend

Used to state "a key that no operation ever mentions": the four mutating
operations of `PreciseHonestPeer`, applied in sequence from `new`. -/

inductive POp (K : Type) where
  | initLocal : K → ℚ → POp K
  | updateLocal : K → ℚ → POp K
  | initGlobal : K → ℚ → POp K
  | updateGlobal : K → ℚ → POp K
deriving DecidableEq

/-- The key an operation mentions. -/
def POp.key : POp K → K
  | POp.initLocal k _ => k
  | POp.updateLocal k _ => k
  | POp.initGlobal k _ => k
  | POp.updateGlobal k _ => k

/-- Apply one operation via the source functions. -/
def applyPOp [DecidableEq K] (hp : PreciseHonestPeer K) : POp K → PreciseHonestPeer K
  | POp.initLocal k v => hp.init_local k v
  | POp.updateLocal k v => hp.update_local k v
  | POp.initGlobal k v => hp.init_global k v
  | POp.updateGlobal k v => hp.update_global k v

/-- Apply a sequence of operations, left to right. -/
def applyPOps [DecidableEq K] (hp : PreciseHonestPeer K) (ops : List (POp K)) :
    PreciseHonestPeer K :=
  ops.foldl applyPOp hp

theorem mapGet_foldl_mapInsert [DecidableEq K] {f : K × ℚ → ℚ} (src : List (K × ℚ)) {q : K}
    (h : ∀ kv ∈ src, kv.1 ≠ q) (dst : List (K × ℚ)) :
    mapGet (src.foldl (fun m kv => mapInsert m kv.1 (f kv)) dst) q = mapGet dst q := by
  induction src generalizing dst with
  | nil => rfl
  | cons kv src ih =>
    rw [List.foldl_cons,
      ih (fun kv' h' => h kv' (List.mem_cons_of_mem kv h')),
      mapGet_mapInsert_ne dst (h kv (List.mem_cons_self kv src)) _]

/-- A key is untouched in a backend state when none of the four maps has an
entry for it. -/
def untouchedKey [DecidableEq K] (hp : PreciseHonestPeer K) (q : K) : Prop :=
  mapGet hp.local_trust q = none ∧ mapGet hp.global_trust q = none ∧
  mapGet hp.normalized_local_trust q = none ∧ mapGet hp.normalized_global_trust q = none

theorem untouchedKey_normalize_local [DecidableEq K] {hp : PreciseHonestPeer K} {q : K}
    (h : untouchedKey hp q) : untouchedKey hp.normalize_local q := by
  obtain ⟨h1, h2, h3, h4⟩ := h
  refine ⟨h1, h2, ?_, h4⟩
  exact (mapGet_foldl_mapInsert hp.local_trust ((mapGet_eq_none_iff _ _).1 h1) _).trans h3

theorem untouchedKey_normalize_global [DecidableEq K] {hp : PreciseHonestPeer K} {q : K}
    (h : untouchedKey hp q) : untouchedKey hp.normalize_global q := by
  obtain ⟨h1, h2, h3, h4⟩ := h
  refine ⟨h1, h2, h3, ?_⟩
  exact (mapGet_foldl_mapInsert hp.global_trust ((mapGet_eq_none_iff _ _).1 h2) _).trans h4

theorem mapGet_addOrInsert_ne [DecidableEq K] (m : List (K × ℚ)) {k q : K} (h : k ≠ q) (v : ℚ) :
    mapGet
      (match mapGet m k with
        | some t => mapInsert m k (t + v)
        | none => mapInsert m k v) q = mapGet m q := by
  cases mapGet m k <;> exact mapGet_mapInsert_ne m h _

theorem untouchedKey_applyPOp [DecidableEq K] {hp : PreciseHonestPeer K} {q : K}
    (h : untouchedKey hp q) (op : POp K) (hk : op.key ≠ q) :
    untouchedKey (applyPOp hp op) q := by
  obtain ⟨h1, h2, h3, h4⟩ := h
  cases op with
  | initLocal k v =>
    have hk' : k ≠ q := hk
    exact untouchedKey_normalize_local ⟨(mapGet_mapInsert_ne hp.local_trust hk' v).trans h1,
      h2, h3, h4⟩
  | updateLocal k v =>
    have hk' : k ≠ q := hk
    exact untouchedKey_normalize_local ⟨(mapGet_addOrInsert_ne hp.local_trust hk' v).trans h1,
      h2, h3, h4⟩
  | initGlobal k v =>
    have hk' : k ≠ q := hk
    exact untouchedKey_normalize_global ⟨h1,
      (mapGet_mapInsert_ne hp.global_trust hk' v).trans h2, h3, h4⟩
  | updateGlobal k v =>
    have hk' : k ≠ q := hk
    exact untouchedKey_normalize_global ⟨h1,
      (mapGet_addOrInsert_ne hp.global_trust hk' v).trans h2, h3, h4⟩

theorem untouchedKey_applyPOps [DecidableEq K] (ops : List (POp K)) :
    ∀ (hp : PreciseHonestPeer K) (q : K), untouchedKey hp q →
      (∀ op ∈ ops, POp.key op ≠ q) → untouchedKey (applyPOps hp ops) q := by
  induction ops with
  | nil => intro hp q h _; exact h
  | cons op ops ih =>
    intro hp q h hops
    exact ih _ q (untouchedKey_applyPOp h op (hops op (List.mem_cons_self op ops)))
      (fun op' h' => hops op' (List.mem_cons_of_mem op h'))

/-! ## Claim theorems -/

/-- C10: For any fixed `CountMinSketch` instance, the row projection does not
depend on the key: for every pair of items `a` and `b` and every row index
`i`, `hash_pair a i = hash_pair b i`, so `hash_functions` assigns every key
the identical vector of column indices — all keys collide into the same
cells.  This holds because `hash_pair` never writes the item into the hasher
before calling `finish()`. -/
theorem c10_hash_projection_ignores_key {α β : Type} (cms : CountMinSketch) (a : α) (b : β) :
    (∀ i : ℕ, cms.hash_pair a i = cms.hash_pair b i) ∧
      cms.hash_functions a = cms.hash_functions b :=
  ⟨fun _ => rfl, rfl⟩

/-- C2: For every key and every sequence of non-negative increments applied
to a freshly constructed sketch (of positive width and depth, as the source
requires for `estimate` not to panic), the estimate — the minimum across the
depth projected cells — dominates the key's true accumulated value, for any
keys and any order of the increments. -/
theorem c2_estimate_never_underestimates {α : Type} [DecidableEq α] (w d : ℕ)
    (mn mx : ℚ) (hs : ℕ) (ops : List (α × ℚ)) (item : α)
    (hw : 0 < w) (hd : 0 < d) (hnn : ∀ p ∈ ops, 0 ≤ p.2) :
    CountMinSketch.trueValue item ops ≤
      (CountMinSketch.applyIncrements (CountMinSketch.new w d mn mx hs) ops).estimate item := by
  have h0 : ∀ i < (CountMinSketch.new w d mn mx hs).depth,
      (0 : ℚ) ≤ getCell (CountMinSketch.new w d mn mx hs).matrix i
        ((CountMinSketch.new w d mn mx hs).hash_pair item i) := by
    intro i hi
    rw [CountMinSketch.getCell_new]
  obtain ⟨hwf', hw', hd', hcell⟩ :=
    CountMinSketch.cells_ge_applyIncrements ops (CountMinSketch.new w d mn mx hs) 0 item
      (CountMinSketch.matrixWF_new w d mn mx hs) hw hnn h0
  have hdpos : 0 < (CountMinSketch.applyIncrements (CountMinSketch.new w d mn mx hs) ops).depth := by
    rw [hd']; exact hd
  refine CountMinSketch.le_estimate item hdpos ?_
  intro i hi
  have hi' : i < (CountMinSketch.new w d mn mx hs).depth := by
    have := hd'; simp only [this] at hi; exact hi
  have := hcell i hi'
  linarith

/-- C2 witness: a concrete run — three increments over two keys, queried at
key `1`, whose true value `8` is dominated by the estimate. -/
theorem c2_estimate_never_underestimates_witness :
    (0 < 4 ∧ 0 < 2 ∧ ∀ p ∈ [((1 : ℕ), (5 : ℚ)), (2, 7), (1, 3)], 0 ≤ p.2) ∧
    CountMinSketch.trueValue 1 [((1 : ℕ), (5 : ℚ)), (2, 7), (1, 3)] ≤
      (CountMinSketch.applyIncrements (CountMinSketch.new 4 2 0 100 0)
        [((1 : ℕ), (5 : ℚ)), (2, 7), (1, 3)]).estimate 1 :=
  ⟨⟨by decide, by decide, by norm_num⟩,
    c2_estimate_never_underestimates 4 2 0 100 0 _ 1 (by decide) (by decide) (by norm_num)⟩

/-- C5: (spec-modelled `decrement`, absent from `src/src/cms.rs`.)
`decrement` subtracts the value from the projected counter of each of the
`depth` rows, clamped per cell at the sketch's `min`; cells of non-projected
columns are untouched; writing `e` for the prior estimate, the new estimate
is exactly `max min (e - v)` — hence never below `min`, and exactly `min`
(the bottom of the claimed interval `[min, min + error_margin]`) as soon as
the decrement `v` is at least `e - min`, in particular whenever `v > e` with
the typical `min = 0`. -/
theorem c5_decrement_clamped_per_cell {α : Type} (cms : CountMinSketch) (item : α) (v : ℚ)
    (hwf : cms.matrixWF) (hw : 0 < cms.width) (hd : 0 < cms.depth)
    (hmin : ∀ i < cms.depth, ∀ j < cms.width, cms.min ≤ getCell cms.matrix i j) :
    (∀ i < cms.depth,
      getCell (cms.decrement item v).matrix i (cms.hash_pair item i) =
        Max.max cms.min (getCell cms.matrix i (cms.hash_pair item i) - v)) ∧
    (∀ i < cms.depth, ∀ j < cms.width,
      cms.min ≤ getCell (cms.decrement item v).matrix i j) ∧
    (cms.decrement item v).estimate item = Max.max cms.min (cms.estimate item - v) ∧
    cms.min ≤ (cms.decrement item v).estimate item ∧
    (cms.estimate item - cms.min ≤ v → (cms.decrement item v).estimate item = cms.min) := by
  have hchar : (cms.decrement item v).estimate item = Max.max cms.min (cms.estimate item - v) :=
    CountMinSketch.estimate_decrement hwf hw hd item v
  refine ⟨?_, ?_, hchar, ?_, ?_⟩
  · intro i hi
    exact CountMinSketch.getCell_decrement hwf hw item item v hi
  · intro i hi j hj
    by_cases hproj : j = cms.hash_pair item i
    · subst hproj
      rw [CountMinSketch.getCell_decrement hwf hw item item v hi]
      exact le_max_left _ _
    · rw [CountMinSketch.getCell_decrement_miss item v
        (by rw [CountMinSketch.hash_functions_getD item hi]; exact hproj)]
      exact hmin i hi j hj
  · rw [hchar]; exact le_max_left _ _
  · intro hv
    rw [hchar]
    exact max_eq_left (by linarith)

/-- Concrete sketch for the C5 witness: a fresh `4 × 2` sketch with
`min = 0`, key `1` incremented by `50`. -/
def cms5ex : CountMinSketch := (CountMinSketch.new 4 2 0 100 0).increment (1 : ℕ) 50

/-- C5 witness: decrementing `cms5ex` (estimate `50`) by `70` drives the
estimate exactly to `min = 0`; every hypothesis of the theorem holds. -/
theorem c5_decrement_clamped_per_cell_witness :
    (cms5ex.matrixWF ∧ 0 < cms5ex.width ∧ 0 < cms5ex.depth ∧
      ∀ i < cms5ex.depth, ∀ j < cms5ex.width, cms5ex.min ≤ getCell cms5ex.matrix i j) ∧
    (cms5ex.decrement (1 : ℕ) 70).estimate (1 : ℕ) = cms5ex.min := by
  have hwf : cms5ex.matrixWF := by decide
  have hw : 0 < cms5ex.width := by decide
  have hd : 0 < cms5ex.depth := by decide
  have hmin : ∀ i < cms5ex.depth, ∀ j < cms5ex.width, cms5ex.min ≤ getCell cms5ex.matrix i j := by
    intro i hi j hj
    have hi2 : i < 2 := hi
    have hj2 : j < 4 := hj
    clear hi hj
    interval_cases i <;> interval_cases j <;>
      norm_num [cms5ex, CountMinSketch.increment, CountMinSketch.new, CountMinSketch.rowsApply,
        CountMinSketch.hash_functions, CountMinSketch.hash_pair, mapCellAt, getCell,
        rowGet, rowSet, matGet, matSet, List.range_succ, List.replicate]
  have hest : cms5ex.estimate (1 : ℕ) - cms5ex.min ≤ 70 := by
    norm_num [cms5ex, CountMinSketch.estimate, CountMinSketch.increment, CountMinSketch.new,
      CountMinSketch.rowsApply, CountMinSketch.hash_functions, CountMinSketch.hash_pair,
      mapCellAt, getCell, rowGet, rowSet, matGet, matSet, List.range_succ, List.replicate,
      List.range']
  exact ⟨⟨hwf, hw, hd, hmin⟩,
    (c5_decrement_clamped_per_cell cms5ex (1 : ℕ) 70 hwf hw hd hmin).2.2.2.2 hest⟩

/-- Concrete sketch for C3: a fresh `2 × 1` sketch with key `1` incremented
by `10`, so its matrix is `[[10, 0]]` with row total `10`. -/
def cms3ex : CountMinSketch := (CountMinSketch.new 2 1 0 100 0).increment (1 : ℕ) 10

/-- C3: `normalize_estimates` does **not** return the sketch's rows divided
by their row sums.  On the concrete sketch with matrix `[[10, 0]]` (row
total `10`) it returns `[[0, 0]]` — the zero-initialized `new_matrix`
divided by the totals — instead of the claimed `[[10/10, 0/10]] = [[1, 0]]`,
contradicting the function's own doc comment. -/
theorem c3_normalize_estimates_returns_zeros :
    cms3ex.matrix = [[10, 0]] ∧
    cms3ex.normalize_estimates = [[0, 0]] ∧
    cms3ex.normalize_estimates ≠ [[10 / 10, 0 / 10]] := by
  have hmat : cms3ex.matrix = [[10, 0]] := by
    norm_num [cms3ex, CountMinSketch.increment, CountMinSketch.new, CountMinSketch.rowsApply,
      CountMinSketch.hash_functions, CountMinSketch.hash_pair, mapCellAt,
      rowGet, rowSet, matGet, matSet, List.range_succ, List.replicate]
  have hnorm : cms3ex.normalize_estimates = [[0, 0]] := by
    rw [CountMinSketch.normalize_estimates, hmat]
    norm_num [CountMinSketch.rowTotal, List.range_succ,
      show cms3ex.depth = 1 from rfl, show cms3ex.width = 2 from rfl, List.replicate]
  refine ⟨hmat, hnorm, ?_⟩
  rw [hnorm]
  norm_num

/-- C4: the sizing computation of `new_from_bounds` at
`(error_bound, probability, max_entries) = (50, 0.0001, 3000)` produces
`width = 60` and `depth = 0` — not the claimed (and test-asserted)
`164` and `10`: the width formula omits the factor `E`, the depth formula
takes `ln` of `probability` itself (negative, so the `usize` cast saturates
to `0`), and neither value is clamped to at least `1`. -/
theorem c4_sizing_formula_mismatch :
    (new_from_bounds 50 (1 / 10000) 3000 0 100 0).width = 60 ∧
    (new_from_bounds 50 (1 / 10000) 3000 0 100 0).depth = 0 ∧
    ((new_from_bounds 50 (1 / 10000) 3000 0 100 0).width,
      (new_from_bounds 50 (1 / 10000) 3000 0 100 0).depth) ≠ (164, 10) := by
  have hwidth : (new_from_bounds 50 (1 / 10000) 3000 0 100 0).width = 60 := by
    show f64AsUsize ((⌈(1 : ℝ) / (50 / 3000)⌉ : ℤ) : ℝ) = 60
    have h60 : (1 : ℝ) / (50 / 3000) = ((60 : ℤ) : ℝ) := by norm_num
    rw [h60, Int.ceil_intCast, f64AsUsize, if_neg (by norm_num), Int.floor_intCast]
    decide
  have hdepth : (new_from_bounds 50 (1 / 10000) 3000 0 100 0).depth = 0 := by
    show f64AsUsize ((⌈Real.log (1 / 10000)⌉ : ℤ) : ℝ) = 0
    have hlog : Real.log (1 / 10000) < 0 :=
      Real.log_neg (by norm_num) (by norm_num)
    have hceil : (⌈Real.log (1 / 10000)⌉ : ℤ) ≤ 0 :=
      Int.ceil_le.2 (by rw [Int.cast_zero]; exact hlog.le)
    rw [f64AsUsize, if_pos (by exact_mod_cast hceil)]
  exact ⟨hwidth, hdepth, by rw [hwidth, hdepth]; decide⟩

/-- C7 counterexample: on a fresh `1 × 1` sketch every row total is zero,
and `normalize_estimates` still executes the per-cell division by the row
total: the checked run aborts on a zero divisor (`none`) instead of applying
a guarded policy. -/
theorem c7_counterexample_sketch_division_by_zero :
    (CountMinSketch.new 1 1 0 10 0).normalize_estimatesChecked = none := by
  have hrow : CountMinSketch.rowTotal [(0 : ℚ)] = 0 := by
    norm_num [CountMinSketch.rowTotal]
  rw [CountMinSketch.normalize_estimatesChecked]
  norm_num [CountMinSketch.new, List.replicate, List.range_succ, CountMinSketch.optTraverse,
    hrow]

/-- C7 (amended): on the exact backend, when no trust has been recorded the
normalization loops iterate over an empty raw map: no division is executed
at all and the normalized maps are left unchanged (the checked run succeeds
without touching a divisor).  The sketch-side half of the original claim is
refuted by the counterexample above. -/
theorem c7_exact_normalize_empty_no_division {K : Type} [DecidableEq K]
    (hp : PreciseHonestPeer K) (hl : hp.local_trust = []) (hg : hp.global_trust = []) :
    hp.normalize_localChecked = some hp ∧ hp.normalize_globalChecked = some hp := by
  obtain ⟨lt, gt, nlt, ngt⟩ := hp
  simp only at hl hg
  subst hl hg
  exact ⟨rfl, rfl⟩

/-- C7 witness: the freshly constructed exact backend has empty raw maps and
its checked normalizations succeed unchanged. -/
theorem c7_exact_normalize_empty_no_division_witness :
    ((PreciseHonestPeer.new : PreciseHonestPeer ℕ).local_trust = [] ∧
      (PreciseHonestPeer.new : PreciseHonestPeer ℕ).global_trust = []) ∧
    (PreciseHonestPeer.new : PreciseHonestPeer ℕ).normalize_localChecked =
        some PreciseHonestPeer.new ∧
      (PreciseHonestPeer.new : PreciseHonestPeer ℕ).normalize_globalChecked =
        some PreciseHonestPeer.new :=
  ⟨⟨rfl, rfl⟩, c7_exact_normalize_empty_no_division PreciseHonestPeer.new rfl rfl⟩

/-- Concrete sketch for C9: `depth = 2`, `width = 3`, with six distinct
cells so that row-major order is observable. -/
def cms9ex : CountMinSketch :=
  { width := 3
    depth := 2
    matrix := [[1, 2, 3], [4, 5, 6]]
    hashState := 0
    max := 100
    min := 0 }

/-- C9: on `cms9ex`, running both iterators with fuel `depth * width + 1 = 7`
from the initial cursor: the borrowed iterator yields the six cells in
row-major order and then returns `None` (`done`) — but the owned iterator,
whose guard is `row > matrix.len()` instead of `>=`, indexes `matrix[2]`
after the last element and panics (`fault`) instead of returning `None`. -/
theorem c9_iterators_row_major_owned_faults :
    collectBorrowed cms9ex 7 0 0 = ([1, 2, 3, 4, 5, 6], IterEnd.done) ∧
    collectOwned cms9ex.matrix 7 0 0 = ([1, 2, 3, 4, 5, 6], IterEnd.fault) := by
  constructor <;> rfl

/-- Concrete exact-backend scenario of C1 (the claim's own example): local
trust `5` for keys `1` and `2`, then the global update about key `2` with
delta `10`.  The source's `update_global` takes no sender and no direction:
`update_global(key, delta)`. -/
def c1Precise : PreciseHonestPeer ℕ :=
  ((PreciseHonestPeer.new.init_local 1 5).init_local 2 5).update_global 2 10

/-- Concrete sketch-backend scenario of C1: the same calls through
`LightHonestPeer` (4 × 2 sketches, digest 0), where `update_global` does
take `(sender, key, delta, direction)`. -/
def c1Light : LightHonestPeer :=
  (((LightHonestPeer.newModel 4 2 0 1000 0).init_local (1 : ℕ) 5).init_local (2 : ℕ) 5).update_global
    (1 : ℕ) (2 : ℕ) 10 Update.increment

/-- C1: the claim's scenario does not produce raw global trust `5` on either
backend.  The exact backend's `update_global` has no sender parameter and
adds the raw delta: raw global trust of key `2` becomes `10`.  The sketch
backend does weight by the sender's normalized local estimate, but
`normalize_estimates` returns an all-zero matrix (see C3), so the weighted
delta is `10 * 0 = 0` and raw global trust of key `2` stays `0`. -/
theorem c1_update_global_not_sender_weighted :
    c1Precise.get_raw_global 2 = some 10 ∧
    c1Light.get_raw_global (2 : ℕ) = some 0 ∧
    c1Precise.get_raw_global 2 ≠ some 5 ∧
    c1Light.get_raw_global (2 : ℕ) ≠ some 5 := by
  have hprecise : c1Precise.get_raw_global 2 = some 10 := by
    norm_num [c1Precise, PreciseHonestPeer.new, PreciseHonestPeer.init_local,
      PreciseHonestPeer.update_global, PreciseHonestPeer.normalize_local,
      PreciseHonestPeer.normalize_global, PreciseHonestPeer.get_raw_global,
      mapGet, mapInsert, mapTotal]
  have hlight : c1Light.get_raw_global (2 : ℕ) = some 0 := by
    norm_num [c1Light, LightHonestPeer.newModel, LightHonestPeer.init_local,
      LightHonestPeer.update_global, LightHonestPeer.normalize_local,
      LightHonestPeer.normalize_global, LightHonestPeer.get_raw_global,
      CountMinSketch.new, CountMinSketch.increment, CountMinSketch.rowsApply,
      CountMinSketch.estimate, CountMinSketch.normalize_estimates,
      CountMinSketch.rowTotal, CountMinSketch.hash_functions, CountMinSketch.hash_pair,
      mapCellAt, getCell, rowGet, rowSet, matGet, matSet,
      List.range_succ, List.range', List.replicate]
  refine ⟨hprecise, hlight, ?_, ?_⟩
  · rw [hprecise]; norm_num
  · rw [hlight]; norm_num

/-- Concrete scenario of C6: on the exact backend, the claim's calls are
`update_local(key, 10, Increment)` then `update_local(key, 5, Decrement)`;
the source's `update_local(key, delta)` has no direction argument and always
adds, so the two available calls leave raw local trust `15`, not `5`. -/
def c6Precise : PreciseHonestPeer ℕ :=
  (PreciseHonestPeer.new.update_local 1 10).update_local 1 5

/-- C6: the exact backend cannot decrement: after `update_local` with `10`
and then with `5`, raw local trust of the key is `15` — not the `5` the
claim (and the crate's own test) expects from an increment followed by a
decrement. -/
theorem c6_exact_update_local_always_adds :
    c6Precise.get_raw_local 1 = some 15 ∧ c6Precise.get_raw_local 1 ≠ some 5 := by
  have heval : c6Precise.get_raw_local 1 = some 15 := by
    norm_num [c6Precise, PreciseHonestPeer.new, PreciseHonestPeer.update_local,
      PreciseHonestPeer.normalize_local, PreciseHonestPeer.get_raw_local,
      mapGet, mapInsert, mapTotal]
  exact ⟨heval, by rw [heval]; norm_num⟩

/-- Well-formedness of a sketch as its point queries require: the matrix
really has the declared `depth × width` dimensions and both are positive —
`estimate` indexes `matrix[0]` and `hash_pair` reduces modulo `width`, so
the source panics on a sketch violating this (cf. the depth-0 sketches that
`new_from_bounds` produces, C4). -/
def CountMinSketch.queryWF (cms : CountMinSketch) : Prop :=
  cms.matrixWF ∧ 0 < cms.width ∧ 0 < cms.depth

instance (cms : CountMinSketch) : Decidable cms.queryWF := by
  unfold CountMinSketch.queryWF; infer_instance

/-- Well-formedness of a sketch backend state: all four sketches are
query-well-formed (as every state built by the crate's constructors from
positive dimensions is). -/
def LightHonestPeer.wf (hp : LightHonestPeer) : Prop :=
  hp.local_trust.queryWF ∧ hp.global_trust.queryWF ∧
  hp.normalized_local_trust.queryWF ∧ hp.normalized_global_trust.queryWF

instance (hp : LightHonestPeer) : Decidable hp.wf := by
  unfold LightHonestPeer.wf; infer_instance

/-- C8: point queries are fail-soft.  On the exact backend, for any sequence
of operations none of which mentions the key `q`, all four point queries
return `none` (no error value exists in the signature); on the sketch
backend, on every well-formed state — the dimension hypotheses under which
the source's `estimate` performs no out-of-bounds access — every point query
returns `some` estimate. -/
theorem c8_point_queries_fail_soft {K : Type} [DecidableEq K] (ops : List (POp K)) (q : K)
    (hops : ∀ op ∈ ops, POp.key op ≠ q) (hpL : LightHonestPeer) (_hwf : hpL.wf) (kk : K) :
    ((applyPOps PreciseHonestPeer.new ops).get_raw_local q = none ∧
      (applyPOps PreciseHonestPeer.new ops).get_normalized_local q = none ∧
      (applyPOps PreciseHonestPeer.new ops).get_raw_global q = none ∧
      (applyPOps PreciseHonestPeer.new ops).get_normalized_global q = none) ∧
    ((hpL.get_raw_local kk).isSome = true ∧ (hpL.get_normalized_local kk).isSome = true ∧
      (hpL.get_raw_global kk).isSome = true ∧ (hpL.get_normalized_global kk).isSome = true) := by
  have h0 : untouchedKey (PreciseHonestPeer.new : PreciseHonestPeer K) q :=
    ⟨rfl, rfl, rfl, rfl⟩
  obtain ⟨h1, h2, h3, h4⟩ := untouchedKey_applyPOps ops PreciseHonestPeer.new q h0 hops
  exact ⟨⟨h1, h3, h2, h4⟩, rfl, rfl, rfl, rfl⟩

/-- C8 witness: a concrete run mentioning keys `1` and `2` leaves the
unmentioned key `7` unset on the exact backend, while a concrete well-formed
sketch backend answers `some` for key `3`. -/
theorem c8_point_queries_fail_soft_witness :
    ((∀ op ∈ [POp.initLocal (1 : ℕ) (5 : ℚ), POp.updateLocal 2 3, POp.initGlobal 1 2,
        POp.updateGlobal 2 4], POp.key op ≠ 7) ∧
      (LightHonestPeer.newModel 4 2 0 100 0).wf) ∧
    ((applyPOps PreciseHonestPeer.new [POp.initLocal (1 : ℕ) (5 : ℚ), POp.updateLocal 2 3,
        POp.initGlobal 1 2, POp.updateGlobal 2 4]).get_raw_local 7 = none ∧
      (applyPOps PreciseHonestPeer.new [POp.initLocal (1 : ℕ) (5 : ℚ), POp.updateLocal 2 3,
        POp.initGlobal 1 2, POp.updateGlobal 2 4]).get_normalized_local 7 = none ∧
      (applyPOps PreciseHonestPeer.new [POp.initLocal (1 : ℕ) (5 : ℚ), POp.updateLocal 2 3,
        POp.initGlobal 1 2, POp.updateGlobal 2 4]).get_raw_global 7 = none ∧
      (applyPOps PreciseHonestPeer.new [POp.initLocal (1 : ℕ) (5 : ℚ), POp.updateLocal 2 3,
        POp.initGlobal 1 2, POp.updateGlobal 2 4]).get_normalized_global 7 = none) ∧
    (((LightHonestPeer.newModel 4 2 0 100 0).get_raw_local (3 : ℕ)).isSome = true ∧
      ((LightHonestPeer.newModel 4 2 0 100 0).get_normalized_local (3 : ℕ)).isSome = true ∧
      ((LightHonestPeer.newModel 4 2 0 100 0).get_raw_global (3 : ℕ)).isSome = true ∧
      ((LightHonestPeer.newModel 4 2 0 100 0).get_normalized_global (3 : ℕ)).isSome = true) := by
  have hops : ∀ op ∈ [POp.initLocal (1 : ℕ) (5 : ℚ), POp.updateLocal 2 3, POp.initGlobal 1 2,
      POp.updateGlobal 2 4], POp.key op ≠ 7 := by
    intro op hop
    fin_cases hop <;> simp [POp.key]
  have hwf : (LightHonestPeer.newModel 4 2 0 100 0).wf := by decide
  obtain ⟨hprec, hlight⟩ := c8_point_queries_fail_soft _ 7 hops
    (LightHonestPeer.newModel 4 2 0 100 0) hwf (3 : ℕ)
  exact ⟨⟨hops, hwf⟩, hprec, hlight⟩

end Decentrust
